import Mathlib

/-!
Verification of the incremental streaming-document decoder of the wit-ai-rs
client library (src/dictation.rs, src/speech.rs).

The decoder receives an HTTP response body as a sequence of byte chunks.  A
mutable buffer accumulates bytes across chunks; complete JSON documents are
recognized syntactically: every document other than the last is terminated by
the two-byte delimiter CR LF (13, 10), and the final document is recognized by
the heuristic that the buffer's last two bytes are LF `}` (10, 125).  Each
recognized document slice is handed to a schema-directed parser
(`serde_json::from_slice` in the source); the dictation endpoint silently
drops parse failures while the speech endpoint surfaces them as error items.

Bytes are modelled as natural numbers (the source works on `&[u8]`; no
arithmetic is performed on bytes, only equality tests, so no modular wrap is
involved).  JSON deserialization is an external collaborator
(`serde_json`); the splitter and adapter are therefore parametrized by an
abstract parse function `List Byte → Option α`, and a small concrete parser
for the `TranscriptionResponse` shape (an object with a single string field
named text) is provided for concrete scenarios.
-/

namespace WitAi

/-- A byte of the response stream (source type: `u8`; only compared for
equality, never operated on arithmetically). -/
abbrev Byte := Nat

/-- The document delimiter `b"\r\n"` (src/dictation.rs line 119,
src/speech.rs line 165: `json_obj_separator`). -/
def crlf : List Byte := [13, 10]

/-- The terminal-document heuristic tail `b"\n}"` (src/dictation.rs line 137,
src/speech.rs line 203: `buffer.ends_with(b"\n}")`). -/
def nlBrace : List Byte := [10, 125]

/-- Position of the first occurrence of the delimiter `\r\n` in a byte list:
the source's `buffer[start..].windows(2).position(|w| w == b"\r\n")`
(src/dictation.rs lines 122-125). -/
def findSep : List Byte → Option Nat
  | [] => none
  | [_] => none
  | a :: b :: rest =>
    if a = 13 ∧ b = 10 then some 0
    else (findSep (b :: rest)).map (· + 1)

/-- Fuel-indexed delimiter-extraction loop.  One step of the source's
`while let Some(end) = ...` loop (src/dictation.rs lines 122-132) removes the
span up to and including the first delimiter, so each step consumes at least
two bytes; `fuel = length` always suffices. -/
def extractDocsF : Nat → List Byte → List (List Byte) × List Byte
  | 0, xs => ([], xs)
  | fuel + 1, xs =>
    match findSep xs with
    | none => ([], xs)
    | some i =>
      let r := extractDocsF fuel (xs.drop (i + 2))
      (xs.take (i + 2) :: r.1, r.2)

/-- The delimiter-scan loop of `feed`: repeatedly finds `\r\n`, emits the
span from the scan start through the delimiter inclusive
(`&buffer[start..start + end + separator_length]`), and finally drops the
consumed prefix (`buffer.drain(..start)`); returns the extracted document
slices in order together with the retained remainder
(src/dictation.rs lines 122-134, src/speech.rs lines 190-200). -/
def extractDocs (xs : List Byte) : List (List Byte) × List Byte :=
  extractDocsF xs.length xs

/-- One invocation of the chunk-processing closure of
`WitClient::dictation` on successfully received chunk bytes
(src/dictation.rs lines 112-144): append the chunk to the buffer, extract all
delimiter-terminated documents, keep the successfully deserialized ones
(`if let Ok(json_object) = serde_json::from_slice(...)`, failures silently
skipped), then if the remaining buffer ends with `\n}` attempt to parse the
entire remaining buffer as the final document, emitting it on success and
leaving the buffer untouched either way. -/
def feedStep (parse : List Byte → Option α) (buffer chunk : List Byte) :
    List α × List Byte :=
  let ex := extractDocs (buffer ++ chunk)
  let items := ex.1.filterMap parse
  let items2 :=
    if nlBrace.isSuffixOf ex.2 then
      match parse ex.2 with
      | some v => items ++ [v]
      | none => items
    else items
  (items2, ex.2)

/-- Folding `feedStep` over a list of chunks, threading the buffer exactly as
the `stream.map(move |chunk_bytes| ...)` closure does across its invocations,
and flattening the per-chunk item lists in order
(`stream_of_streams.flatten()`, src/dictation.rs line 147). -/
def runChunks (parse : List Byte → Option α) (buffer : List Byte) :
    List (List Byte) → List α × List Byte
  | [] => ([], buffer)
  | c :: cs =>
    let s := feedStep parse buffer c
    let t := runChunks parse s.2 cs
    (s.1 ++ t.1, t.2)

/-- The delimiter-extraction part of one feed call viewed at the document
level: the document slices cut out of `buffer ++ chunk` by the scan loop, and
the retained remainder (independent of any parser). -/
def feedDocs (buffer chunk : List Byte) : List (List Byte) × List Byte :=
  extractDocs (buffer ++ chunk)

/-- Folding `feedDocs` over a chunk list: all delimiter-extracted document
slices across the feed calls, in emission order, with the final buffer. -/
def runDocs (buffer : List Byte) : List (List Byte) → List (List Byte) × List Byte
  | [] => ([], buffer)
  | c :: cs =>
    let s := feedDocs buffer c
    let t := runDocs s.2 cs
    (s.1 ++ t.1, t.2)

/-- The documents emitted by one feed call in the sense of the specification:
every delimiter-extracted slice, plus — when the remaining buffer ends with
`\n}` and deserializes successfully — the remaining buffer as a terminal
document (src/dictation.rs lines 137-141).  The buffer is NOT shortened by a
terminal emission. -/
def feedEmitted (parse : List Byte → Option α) (buffer chunk : List Byte) :
    List (List Byte) × List Byte :=
  let ex := extractDocs (buffer ++ chunk)
  let docs :=
    if nlBrace.isSuffixOf ex.2 ∧ (parse ex.2).isSome then ex.1 ++ [ex.2] else ex.1
  (docs, ex.2)

/-- Folding `feedEmitted` over a chunk list. -/
def runEmitted (parse : List Byte → Option α) (buffer : List Byte) :
    List (List Byte) → List (List Byte) × List Byte
  | [] => ([], buffer)
  | c :: cs =>
    let s := feedEmitted parse buffer c
    let t := runEmitted parse s.2 cs
    (s.1 ++ t.1, t.2)

/-- An output item of the speech endpoint's per-document resolver
(src/speech.rs): a typed value of one of the two schemas, or a classified
JSON-parse failure (`Error::JSONParseError`), carrying the document's decoded
text when the bytes are valid UTF-8 and no text otherwise. -/
inductive SpeechItem (U T : Type) where
  | understanding : U → SpeechItem U T
  | transcription : T → SpeechItem U T
  | errText : String → SpeechItem U T
  | errRaw : SpeechItem U T
deriving DecidableEq

/-- The `parse_chunk` closure of `WitClient::speech` (src/speech.rs lines
168-188): try the `UnderstandingResponse` schema first; on failure try
`TranscriptionResponse`; if both fail, classify the slice as an error
carrying its UTF-8 decoding when one exists (`from_utf8(chunk)`), and as a
textless error otherwise.  The two serde deserializers and `from_utf8` are
external collaborators, taken as parameters. -/
def parse_chunk (parseU : List Byte → Option U) (parseT : List Byte → Option T)
    (utf8 : List Byte → Option String) (chunk : List Byte) : SpeechItem U T :=
  match parseU chunk with
  | some u => .understanding u
  | none =>
    match parseT chunk with
    | some t => .transcription t
    | none =>
      match utf8 chunk with
      | some s => .errText s
      | none => .errRaw

/-- One chunk event from the transport (`reqwest`'s `bytes_stream()`): either
chunk bytes or a transport read failure. -/
inductive SrcChunk where
  | ok (data : List Byte)
  | fail
deriving DecidableEq

/-- An item of the dictation output stream: a deserialized response, or the
transport-error item `Err(Error::ResponseParseError(err))`. -/
inductive DictItem (α : Type) where
  | ok (v : α)
  | transportErr
deriving DecidableEq

/-- One invocation of the dictation closure on a transport event
(src/dictation.rs lines 103-144): a transport failure yields exactly the
singleton error item and leaves the buffer untouched (the early return at
lines 104-107 precedes `buffer.extend_from_slice`); chunk bytes are processed
by the splitter/parser step. -/
def dictationStep (parse : List Byte → Option α) (buffer : List Byte) :
    SrcChunk → List (DictItem α) × List Byte
  | .fail => ([.transportErr], buffer)
  | .ok data =>
    let s := feedStep parse buffer data
    (s.1.map DictItem.ok, s.2)

/-- Folding `dictationStep` over the transport's event sequence and
flattening, as `stream_of_streams.flatten()` does. -/
def dictationRun (parse : List Byte → Option α) (buffer : List Byte) :
    List SrcChunk → List (DictItem α) × List Byte
  | [] => ([], buffer)
  | c :: cs =>
    let s := dictationStep parse buffer c
    let t := dictationRun parse s.2 cs
    (s.1 ++ t.1, t.2)

/-- JSON whitespace bytes (space, tab, line feed, carriage return), the
exact whitespace set `serde_json` skips between tokens. -/
def isWsByte (b : Byte) : Bool := b = 32 || b = 9 || b = 10 || b = 13

/-- Drop leading JSON whitespace. -/
def skipWs (l : List Byte) : List Byte := l.dropWhile isWsByte

/-- Consume one expected byte. -/
def expectByte (b : Byte) : List Byte → Option (List Byte)
  | x :: rest => if x = b then some rest else none
  | [] => none

/-- Consume the body of a JSON string after its opening quote, up to and
including the closing quote; escape sequences and control bytes are rejected
(the documents in this development contain neither).  Returns the string's
bytes and the rest. -/
def stringBody : List Byte → Option (List Byte × List Byte)
  | [] => none
  | b :: rest =>
    if b = 34 then some ([], rest)
    else if b = 92 ∨ b < 32 then none
    else (stringBody rest).map fun p => (b :: p.1, p.2)

/-- Consume a JSON string including both quotes. -/
def jsonString (l : List Byte) : Option (List Byte × List Byte) :=
  match l with
  | 34 :: rest => stringBody rest
  | _ => none

/-- Model of `serde_json::from_slice::<TranscriptionResponse>` — an object
with the single field named text holding a string — restricted to documents
whose strings contain no escape sequences and which carry no extra fields.
Accepts whitespace between tokens and after the closing brace and rejects any
trailing non-whitespace bytes, exactly as `serde_json::from_slice` does (it
deserializes the value and then requires end of input modulo whitespace).
Returns the bytes of the text field. -/
def parseTranscription (doc : List Byte) : Option (List Byte) :=
  match expectByte 123 (skipWs doc) with
  | none => none
  | some r1 =>
    match jsonString (skipWs r1) with
    | some ([116, 101, 120, 116], r2) =>
      match expectByte 58 (skipWs r2) with
      | none => none
      | some r3 =>
        match jsonString (skipWs r3) with
        | none => none
        | some (s, r4) =>
          match expectByte 125 (skipWs r4) with
          | none => none
          | some r5 => if (skipWs r5).isEmpty then some s else none
    | _ => none

/-- The Rust slice expressions of the scan loop, with every index bound made
explicit: `buffer[start..]` requires `start ≤ len`,
`buffer[start..start + end + separator_length]` requires
`start + end + 2 ≤ len`, and `buffer.drain(..start)` requires `start ≤ len`;
an out-of-bounds index is modelled as `none` (a Rust panic).  Returns the
extracted documents together with the final scan position. -/
def scanFrom (buf : List Byte) (start : Nat) :
    Option (List (List Byte) × Nat) :=
  if h : start ≤ buf.length then
    match findSep (buf.drop start) with
    | none => some ([], start)
    | some i =>
      if h2 : start + i + 2 ≤ buf.length then
        match scanFrom buf (start + i + 2) with
        | none => none
        | some r => some ((buf.drop start).take (i + 2) :: r.1, r.2)
      else none
  else none
termination_by buf.length - start
decreasing_by omega

/-- `feedStep` with every slice-indexing bound checked as in `scanFrom`,
including the `drain(..start)` bound. -/
def feedChecked (parse : List Byte → Option α) (buffer chunk : List Byte) :
    Option (List α × List Byte) :=
  let buf := buffer ++ chunk
  match scanFrom buf 0 with
  | none => none
  | some (docs, fin) =>
    if fin ≤ buf.length then
      let rest := buf.drop fin
      let items := docs.filterMap parse
      let items2 :=
        if nlBrace.isSuffixOf rest then
          match parse rest with
          | some v => items ++ [v]
          | none => items
        else items
      some (items2, rest)
    else none

/-- Bytes of the text value a. -/
def textA : List Byte := [97]

/-- Bytes of the text value b. -/
def textB : List Byte := [98]

/-- The chunk `b"{\"text\":\"a\"}\r\n"`. -/
def chunkA : List Byte :=
  [123, 34, 116, 101, 120, 116, 34, 58, 34, 97, 34, 125, 13, 10]

/-- The chunk `b"{\"text\":\"b\"}\n}"`: a complete object followed by a stray
line feed and closing brace (the literal final chunk of the specification's
concrete scenario). -/
def chunkBLit : List Byte :=
  [123, 34, 116, 101, 120, 116, 34, 58, 34, 98, 34, 125, 10, 125]

/-- The chunk `b"{\"text\":\"b\"\n}"`: one valid object whose closing brace
sits on its own line, so its last two bytes are `\n}`. -/
def chunkBDoc : List Byte :=
  [123, 34, 116, 101, 120, 116, 34, 58, 34, 98, 34, 10, 125]

/-- The document `b"{\"text\":\"a\"\n}"`: a valid object whose last two
bytes are `\n}`. -/
def docANl : List Byte :=
  [123, 34, 116, 101, 120, 116, 34, 58, 34, 97, 34, 10, 125]

/-! ### Properties of the delimiter search -/

theorem findSep_some_decomp : ∀ {xs : List Byte} {i : Nat}, findSep xs = some i →
    ∃ p t, xs = p ++ crlf ++ t ∧ p.length = i
  | [], _, h => by simp [findSep] at h
  | [_], _, h => by simp [findSep] at h
  | a :: b :: rest, i, h => by
    rw [findSep] at h
    by_cases hab : a = 13 ∧ b = 10
    · rw [if_pos hab] at h
      injection h with h
      exact ⟨[], rest, by simp [crlf, hab.1, hab.2], h ▸ rfl⟩
    · rw [if_neg hab] at h
      cases hj : findSep (b :: rest) with
      | none => rw [hj] at h; simp at h
      | some j =>
        rw [hj] at h
        simp only [Option.map_some'] at h
        injection h with h
        obtain ⟨p, t, hpt, hlen⟩ := findSep_some_decomp hj
        refine ⟨a :: p, t, ?_, ?_⟩
        · simpa using congrArg (a :: ·) hpt
        · simp [hlen, ← h]

theorem findSep_some_le {xs : List Byte} {i : Nat} (h : findSep xs = some i) :
    i + 2 ≤ xs.length := by
  obtain ⟨p, t, rfl, hlen⟩ := findSep_some_decomp h
  simp [crlf, ← hlen]

theorem findSep_isSome_of_infix_crlf : ∀ {xs : List Byte}, crlf <:+: xs →
    (findSep xs).isSome
  | [], h => by
    have := h.length_le
    simp [crlf] at this
  | [_], h => by
    have := h.length_le
    simp [crlf] at this
  | a :: b :: rest, h => by
    rw [findSep]
    by_cases hab : a = 13 ∧ b = 10
    · rw [if_pos hab]; rfl
    · rw [if_neg hab]
      obtain ⟨s, t, hst⟩ := h
      have hsub : crlf <:+: b :: rest := by
        cases s with
        | nil =>
          exfalso
          simp only [List.nil_append, crlf] at hst
          injection hst with h1 h2
          injection h2 with h2 _
          exact hab ⟨h1.symm, h2.symm⟩
        | cons x s' =>
          simp only [List.cons_append] at hst
          injection hst with _ h2
          exact ⟨s', t, h2⟩
      have := findSep_isSome_of_infix_crlf hsub
      cases hj : findSep (b :: rest) with
      | none => rw [hj] at this; simp at this
      | some j => simp

theorem findSep_none_of_not_infix {xs : List Byte} (h : ¬ crlf <:+: xs) :
    findSep xs = none := by
  cases hj : findSep xs with
  | none => rfl
  | some i =>
    exfalso
    obtain ⟨p, t, rfl, _⟩ := findSep_some_decomp hj
    exact h ⟨p, t, rfl⟩

theorem not_infix_of_findSep_none {xs : List Byte} (h : findSep xs = none) :
    ¬ crlf <:+: xs := by
  intro hin
  have := findSep_isSome_of_infix_crlf hin
  rw [h] at this
  simp at this

theorem findSep_append_sep : ∀ (B t : List Byte), findSep B = none →
    findSep (B ++ 13 :: 10 :: t) = some B.length
  | [], t, _ => by simp [findSep]
  | [a], t, h => by
    have ha : ¬ (a = 13 ∧ (13 : Byte) = 10) := fun hc => absurd hc.2 (by decide)
    simp [findSep, ha]
  | a :: b :: B', t, h => by
    rw [findSep] at h
    have hab : ¬ (a = 13 ∧ b = 10) := by
      intro hc
      rw [if_pos hc] at h
      simp at h
    rw [if_neg hab] at h
    have hB' : findSep (b :: B') = none := by
      cases hj : findSep (b :: B') with
      | none => rfl
      | some j => rw [hj] at h; simp at h
    have ih := findSep_append_sep (b :: B') t hB'
    show findSep (a :: b :: (B' ++ 13 :: 10 :: t)) = _
    rw [findSep, if_neg hab]
    have : b :: (B' ++ 13 :: 10 :: t) = (b :: B') ++ 13 :: 10 :: t := rfl
    rw [this, ih]
    simp

/-! ### Properties of the extraction loop -/

theorem extractDocsF_none (f : Nat) {xs : List Byte} (h : findSep xs = none) :
    extractDocsF f xs = ([], xs) := by
  cases f with
  | zero => rfl
  | succ f => rw [extractDocsF, h]

theorem extractDocsF_congr : ∀ (f₁ f₂ : Nat) (xs : List Byte),
    xs.length ≤ f₁ → xs.length ≤ f₂ → extractDocsF f₁ xs = extractDocsF f₂ xs
  | 0, f₂, xs, h₁, _ => by
    have : xs = [] := List.eq_nil_of_length_eq_zero (Nat.le_zero.mp h₁)
    subst this
    rw [extractDocsF_none f₂ (by simp [findSep])]
    rfl
  | f₁ + 1, 0, xs, _, h₂ => by
    have : xs = [] := List.eq_nil_of_length_eq_zero (Nat.le_zero.mp h₂)
    subst this
    rw [extractDocsF_none (f₁ + 1) (by simp [findSep])]
    rfl
  | f₁ + 1, f₂ + 1, xs, h₁, h₂ => by
    rw [extractDocsF, extractDocsF]
    cases hj : findSep xs with
    | none => dsimp only
    | some i =>
      dsimp only
      have hle := findSep_some_le hj
      have hlen : (xs.drop (i + 2)).length ≤ f₁ := by
        rw [List.length_drop]; omega
      have hlen2 : (xs.drop (i + 2)).length ≤ f₂ := by
        rw [List.length_drop]; omega
      rw [extractDocsF_congr f₁ f₂ (xs.drop (i + 2)) hlen hlen2]

theorem extractDocs_of_none {xs : List Byte} (h : findSep xs = none) :
    extractDocs xs = ([], xs) :=
  extractDocsF_none _ h

theorem extractDocs_cons (B t : List Byte) (h : findSep B = none) :
    extractDocs (B ++ 13 :: 10 :: t) =
      ((B ++ crlf) :: (extractDocs t).1, (extractDocs t).2) := by
  have hsep := findSep_append_sep B t h
  have hlen : (B ++ 13 :: 10 :: t).length = B.length + 2 + t.length := by
    simp; omega
  rw [extractDocs, hlen]
  rw [show B.length + 2 + t.length = (B.length + 1 + t.length) + 1 from by omega]
  rw [extractDocsF, hsep]
  dsimp only
  have hre : B ++ 13 :: 10 :: t = (B ++ crlf) ++ t := by simp [crlf]
  have htake : (B ++ 13 :: 10 :: t).take (B.length + 2) = B ++ crlf := by
    rw [hre, show B.length + 2 = (B ++ crlf).length from by simp [crlf]]
    exact List.take_left _ _
  have hdrop : (B ++ 13 :: 10 :: t).drop (B.length + 2) = t := by
    rw [hre, show B.length + 2 = (B ++ crlf).length from by simp [crlf]]
    exact List.drop_left _ _
  rw [htake, hdrop]
  rw [extractDocsF_congr (B.length + 1 + t.length) t.length t (by omega) le_rfl]
  rfl

theorem extractDocsF_join : ∀ (f : Nat) (xs : List Byte),
    (extractDocsF f xs).1.flatten ++ (extractDocsF f xs).2 = xs
  | 0, xs => rfl
  | f + 1, xs => by
    rw [extractDocsF]
    cases hj : findSep xs with
    | none => rfl
    | some i =>
      simp only [List.flatten_cons, List.append_assoc]
      rw [extractDocsF_join f (xs.drop (i + 2))]
      exact List.take_append_drop _ _

theorem extractDocs_join (xs : List Byte) :
    (extractDocs xs).1.flatten ++ (extractDocs xs).2 = xs :=
  extractDocsF_join _ _

theorem findSep_extractF_none : ∀ (f : Nat) (xs : List Byte), xs.length ≤ f →
    findSep (extractDocsF f xs).2 = none
  | 0, xs, h => by
    have : xs = [] := List.eq_nil_of_length_eq_zero (Nat.le_zero.mp h)
    subst this
    rfl
  | f + 1, xs, h => by
    rw [extractDocsF]
    cases hj : findSep xs with
    | none => exact hj
    | some i =>
      have hle := findSep_some_le hj
      exact findSep_extractF_none f (xs.drop (i + 2)) (by rw [List.length_drop]; omega)

theorem findSep_extract_none (xs : List Byte) :
    findSep (extractDocs xs).2 = none :=
  findSep_extractF_none _ _ le_rfl

/-! ### Occurrence bookkeeping for the two marker byte pairs -/

theorem infix_append_singleton {p xs : List Byte} {a : Byte}
    (h : p <:+: xs ++ [a]) : p <:+: xs ∨ p <:+ (xs ++ [a]) := by
  obtain ⟨s, t, hst⟩ := h
  rcases List.eq_nil_or_concat t with rfl | ⟨t', b, rfl⟩
  · right
    exact ⟨s, by simpa using hst⟩
  · left
    rw [List.concat_eq_append, ← List.append_assoc] at hst
    have h2 := List.append_inj' hst rfl
    exact ⟨s, t', h2.1⟩

theorem crlf_not_suffix_snoc13 (B : List Byte) : ¬ crlf <:+ (B ++ [13]) := by
  rintro ⟨s, hs⟩
  rw [crlf, show s ++ [13, 10] = (s ++ [13]) ++ [10] from by simp] at hs
  have := List.append_inj' hs rfl
  have h10 : (10 : Byte) = 13 := by
    have := this.2
    injection this
  exact absurd h10 (by decide)

theorem nlBrace_not_suffix_snoc13 (B : List Byte) : ¬ nlBrace <:+ (B ++ [13]) := by
  rintro ⟨s, hs⟩
  rw [nlBrace, show s ++ [10, 125] = (s ++ [10]) ++ [125] from by simp] at hs
  have := List.append_inj' hs rfl
  have h125 : (125 : Byte) = 13 := by
    have := this.2
    injection this
  exact absurd h125 (by decide)

theorem crlf_not_infix_snoc13 {B : List Byte} (h : findSep B = none) :
    ¬ crlf <:+: (B ++ [13]) := by
  intro hin
  rcases infix_append_singleton hin with hB | hs
  · exact not_infix_of_findSep_none h hB
  · exact crlf_not_suffix_snoc13 B hs

theorem nlBrace_not_infix_snoc13 {B : List Byte} (h : ¬ nlBrace <:+: B) :
    ¬ nlBrace <:+: (B ++ [13]) := by
  intro hin
  rcases infix_append_singleton hin with hB | hs
  · exact h hB
  · exact nlBrace_not_suffix_snoc13 B hs

/-! ### The byte stream determined by a document sequence -/

/-- A delimiter-terminated document: its body followed by `\r\n`. -/
def docOf (B : List Byte) : List Byte := B ++ crlf

/-- The wire bytes of a sequence of delimiter-terminated document bodies
followed by the final segment `F`. -/
def tailStream (bodies : List (List Byte)) (F : List Byte) : List Byte :=
  (bodies.map docOf).flatten ++ F

theorem tailStream_nil (F : List Byte) : tailStream [] F = F := by
  simp [tailStream]

theorem tailStream_cons (B : List Byte) (bodies : List (List Byte)) (F : List Byte) :
    tailStream (B :: bodies) F = docOf B ++ tailStream bodies F := by
  simp [tailStream]

theorem tailStream_append (bs₁ bs₂ : List (List Byte)) (F : List Byte) :
    tailStream (bs₁ ++ bs₂) F = (bs₁.map docOf).flatten ++ tailStream bs₂ F := by
  simp [tailStream]

theorem prefix_snoc13_of_short {x B T : List Byte}
    (hx : x <+: docOf B ++ T) (hlen : x.length ≤ B.length + 1) :
    x <+: B ++ [13] := by
  have hre : docOf B ++ T = (B ++ [13]) ++ (10 :: T) := by simp [docOf, crlf]
  have htake : ((B ++ [13]) ++ (10 :: T)).take (B.length + 1) = B ++ [13] := by
    rw [show B.length + 1 = (B ++ [13]).length from by simp]
    exact List.take_left _ _
  rw [hre] at hx
  exact htake ▸ List.prefix_take_iff.mpr ⟨hx, hlen⟩

/-- Feeding any prefix of the wire bytes of a document sequence to the
extraction loop cuts out exactly the fully-received documents, in order, and
retains a delimiter-free prefix of the rest of the stream. -/
theorem extractDocs_stream (F : List Byte) (hF : findSep F = none) :
    ∀ (bodies : List (List Byte)) (x : List Byte),
      (∀ B ∈ bodies, findSep B = none) →
      x <+: tailStream bodies F →
      ∃ bs₁ bs₂ r, bodies = bs₁ ++ bs₂ ∧
        extractDocs x = (bs₁.map docOf, r) ∧
        x = (bs₁.map docOf).flatten ++ r ∧
        findSep r = none ∧ r <+: tailStream bs₂ F := by
  intro bodies
  induction bodies with
  | nil =>
    intro x _ hx
    rw [tailStream_nil] at hx
    have hnone : findSep x = none := by
      apply findSep_none_of_not_infix
      intro hin
      exact absurd (findSep_isSome_of_infix_crlf (hin.trans hx.isInfix))
        (by rw [hF]; simp)
    exact ⟨[], [], x, rfl, extractDocs_of_none hnone, rfl, hnone,
      by rw [tailStream_nil]; exact hx⟩
  | cons B bodies ih =>
    intro x hall hx
    rw [tailStream_cons] at hx
    have hB : findSep B = none := hall B (by simp)
    by_cases hlen : x.length ≤ B.length + 1
    · have hx13 : x <+: B ++ [13] := prefix_snoc13_of_short hx hlen
      have hnone : findSep x = none := by
        apply findSep_none_of_not_infix
        intro hin
        exact crlf_not_infix_snoc13 hB (hin.trans hx13.isInfix)
      exact ⟨[], B :: bodies, x, rfl, extractDocs_of_none hnone, rfl, hnone,
        by rw [tailStream_cons]; exact hx⟩
    · have hdoc : docOf B <+: x := by
        apply List.prefix_of_prefix_length_le (List.prefix_append _ _) hx
        simp [docOf, crlf]
        omega
      obtain ⟨y, rfl⟩ := hdoc
      have hy : y <+: tailStream bodies F :=
        (List.prefix_append_right_inj (docOf B)).mp hx
      obtain ⟨bs₁, bs₂, r, hbs, hex, hxeq, hr, hrpre⟩ :=
        ih y (fun B hBmem => hall B (by simp [hBmem])) hy
      refine ⟨B :: bs₁, bs₂, r, by rw [hbs]; rfl, ?_, ?_, hr, hrpre⟩
      · have : docOf B ++ y = B ++ 13 :: 10 :: y := by simp [docOf, crlf]
        rw [this, extractDocs_cons B y hB, hex]
        rfl
      · simp only [List.map_cons, List.flatten_cons, List.append_assoc]
        rw [← hxeq]

/-- A delimiter-free prefix of the wire stream whose last two bytes are
`\n}` can only be the complete final segment: every strict prefix is blocked
either by the body hypotheses or by the delimiter-freeness. -/
theorem terminal_only_at_end (F : List Byte)
    (hT : ∀ p, p <+: F → nlBrace <:+ p → p = F) :
    ∀ (bodies : List (List Byte)) (p : List Byte),
      (∀ B ∈ bodies, findSep B = none ∧ ¬ nlBrace <:+: B) →
      p <+: tailStream bodies F → findSep p = none → nlBrace <:+ p →
      bodies = [] ∧ p = F := by
  intro bodies p hall hp hpsep hpend
  cases bodies with
  | nil =>
    rw [tailStream_nil] at hp
    exact ⟨rfl, hT p hp hpend⟩
  | cons B bodies =>
    exfalso
    rw [tailStream_cons] at hp
    obtain ⟨hBsep, hBnl⟩ := hall B (by simp)
    by_cases hlen : p.length ≤ B.length + 1
    · have hp13 : p <+: B ++ [13] := prefix_snoc13_of_short hp hlen
      exact nlBrace_not_infix_snoc13 hBnl (hpend.isInfix.trans hp13.isInfix)
    · have hdoc : docOf B <+: p := by
        apply List.prefix_of_prefix_length_le (List.prefix_append _ _) hp
        simp [docOf, crlf]
        omega
      have hcrlf : crlf <:+: p := by
        obtain ⟨y, rfl⟩ := hdoc
        exact ⟨B, y, by simp [docOf]⟩
      exact absurd (findSep_isSome_of_infix_crlf hcrlf) (by rw [hpsep]; simp)

/-! ### The master run lemma -/

/-- The conditions under which one delimiter-terminated document is benign
for the splitter: its body contains no `\r\n` and no `\n}` occurrence, and
the parser accepts the body with its trailing delimiter, producing `v`. -/
def DocVal (parse : List Byte → Option α) (B : List Byte) (v : α) : Prop :=
  findSep B = none ∧ ¬ nlBrace <:+: B ∧ parse (docOf B) = some v

theorem forall₂_split {α : Type*} {R : List Byte → α → Prop} :
    ∀ {bs₁ bs₂ : List (List Byte)} {vs : List α},
      List.Forall₂ R (bs₁ ++ bs₂) vs →
      ∃ vs₁ vs₂, vs = vs₁ ++ vs₂ ∧ List.Forall₂ R bs₁ vs₁ ∧ List.Forall₂ R bs₂ vs₂ := by
  intro bs₁
  induction bs₁ with
  | nil => exact fun h => ⟨[], _, rfl, List.Forall₂.nil, h⟩
  | cons B bs₁ ih =>
    intro bs₂ vs h
    cases h with
    | cons hBv h =>
      obtain ⟨vs₁, vs₂, rfl, h₁, h₂⟩ := ih h
      exact ⟨_ :: vs₁, vs₂, rfl, List.Forall₂.cons hBv h₁, h₂⟩

theorem forall₂_docval_mem {parse : List Byte → Option α}
    {bodies : List (List Byte)} {vs : List α}
    (h : List.Forall₂ (DocVal parse) bodies vs) :
    ∀ B ∈ bodies, findSep B = none ∧ ¬ nlBrace <:+: B := by
  induction h with
  | nil => simp
  | cons hBv _ ih =>
    intro B hB
    rw [List.mem_cons] at hB
    rcases hB with rfl | hB
    · exact ⟨hBv.1, hBv.2.1⟩
    · exact ih B hB

theorem filterMap_of_docval {parse : List Byte → Option α} :
    ∀ {bodies : List (List Byte)} {vs : List α},
      List.Forall₂ (DocVal parse) bodies vs →
      (bodies.map docOf).filterMap parse = vs := by
  intro bodies vs h
  induction h with
  | nil => rfl
  | cons hBv _ ih =>
    simp only [List.map_cons, List.filterMap_cons, hBv.2.2, ih]

theorem flatten_ne_nil {cs : List (List Byte)} (h0 : cs ≠ [])
    (h : ∀ c ∈ cs, c ≠ []) : cs.flatten ≠ [] := by
  cases cs with
  | nil => exact absurd rfl h0
  | cons c cs =>
    have hc : c ≠ [] := h c (by simp)
    simp only [List.flatten_cons]
    intro hcon
    exact hc (List.append_eq_nil.mp hcon).1

/-- The item, if any, contributed by the terminal `\n}` heuristic once the
final segment `F` is fully buffered. -/
def termOut (parse : List Byte → Option α) (F : List Byte) : List α :=
  if nlBrace.isSuffixOf F then (parse F).toList else []

/-- Master lemma: feeding the wire bytes of a document sequence, partitioned
into nonempty chunks in any way, starting from a delimiter-free buffer that
accounts for the not-yet-fed remainder, yields exactly the documents' parsed
values in order, then the terminal item for `F` (emitted once, on the feed
call that completes the stream), with the buffer left holding exactly `F`. -/
theorem runChunks_master (parse : List Byte → Option α) (F : List Byte)
    (hF : findSep F = none)
    (hT : ∀ p, p <+: F → nlBrace <:+ p → p = F) :
    ∀ (cs : List (List Byte)) (bodies : List (List Byte)) (vs : List α) (r : List Byte),
      cs ≠ [] → (∀ c ∈ cs, c ≠ []) →
      List.Forall₂ (DocVal parse) bodies vs →
      findSep r = none →
      r ++ cs.flatten = tailStream bodies F →
      runChunks parse r cs = (vs ++ termOut parse F, F) := by
  intro cs
  induction cs with
  | nil => exact fun _ _ _ h0 _ _ _ _ => absurd rfl h0
  | cons c cs ih =>
    intro bodies vs r _ hne hforall hr hstream
    have hxpre : (r ++ c) ++ cs.flatten = tailStream bodies F := by
      rw [List.append_assoc]
      simpa using hstream
    have hx : r ++ c <+: tailStream bodies F := ⟨cs.flatten, hxpre⟩
    obtain ⟨bs₁, bs₂, r', hbs, hex, hxeq, hr', hrpre⟩ :=
      extractDocs_stream F hF bodies (r ++ c)
        (fun B hB => (forall₂_docval_mem hforall B hB).1) hx
    obtain ⟨vs₁, vs₂, rfl, hf₁, hf₂⟩ := forall₂_split
      (show List.Forall₂ (DocVal parse) (bs₁ ++ bs₂) vs by
        rw [← hbs]; exact hforall)
    have hitems : (extractDocs (r ++ c)).1.filterMap parse = vs₁ := by
      rw [hex]
      exact filterMap_of_docval hf₁
    have hrest : r' ++ cs.flatten = tailStream bs₂ F := by
      have h1 : ((bs₁.map docOf).flatten ++ r') ++ cs.flatten
          = (bs₁.map docOf).flatten ++ tailStream bs₂ F := by
        rw [← hxeq, hxpre, hbs, tailStream_append]
      rw [List.append_assoc] at h1
      exact List.append_cancel_left h1
    cases cs with
    | nil =>
      have hr'eq : r' = tailStream bs₂ F := by simpa using hrest
      have hbs₂ : bs₂ = [] := by
        cases hbs₂ : bs₂ with
        | nil => rfl
        | cons B bs₂' =>
          exfalso
          rw [hbs₂, tailStream_cons] at hr'eq
          have : crlf <:+: r' := ⟨B, tailStream bs₂' F, by simp [hr'eq, docOf]⟩
          exact absurd (findSep_isSome_of_infix_crlf this) (by rw [hr']; simp)
      have hvs₂ : vs₂ = [] := by
        rw [hbs₂] at hf₂
        exact List.forall₂_nil_left_iff.mp hf₂
      rw [hbs₂, tailStream_nil] at hr'eq
      subst r'
      show (let s := feedStep parse r c
            let t := runChunks parse s.2 []
            (s.1 ++ t.1, t.2)) = _
      rw [feedStep]
      simp only [runChunks]
      rw [hex] at hitems ⊢
      simp only [hitems, hvs₂, List.append_nil]
      rw [termOut]
      by_cases hsuf : nlBrace.isSuffixOf F
      · rw [if_pos hsuf, if_pos hsuf]
        cases hp : parse F with
        | none => simp
        | some v => simp
      · rw [if_neg hsuf, if_neg hsuf]
        simp
    | cons c₂ cs' =>
      have hcs_ne : c₂ :: cs' ≠ [] := by simp
      have hflat_ne : (c₂ :: cs').flatten ≠ [] :=
        flatten_ne_nil hcs_ne (fun x hx => hne x (by simp [hx]))
      have hnosuf : ¬ nlBrace.isSuffixOf r' := by
        intro hsuf
        have hsuf' : nlBrace <:+ r' := by
          rw [List.isSuffixOf_iff_suffix] at hsuf
          exact hsuf
        obtain ⟨hbs₂, hr'F⟩ := terminal_only_at_end F hT bs₂ r'
          (forall₂_docval_mem hf₂) hrpre hr' hsuf'
        rw [hbs₂, tailStream_nil] at hrest
        rw [hr'F] at hrest
        have : (c₂ :: cs').flatten = [] := by
          have hlen := congrArg List.length hrest
          simp only [List.length_append] at hlen
          exact List.eq_nil_of_length_eq_zero (by omega)
        exact hflat_ne this
      show (let s := feedStep parse r c
            let t := runChunks parse s.2 (c₂ :: cs')
            (s.1 ++ t.1, t.2)) = _
      rw [feedStep]
      simp only
      rw [hex] at hitems ⊢
      simp only [hitems]
      rw [if_neg hnosuf]
      have hihres := ih bs₂ vs₂ r' (by simp) (fun x hx => hne x (by simp [hx]))
        hf₂ hr' hrest
      rw [hihres]
      simp

/-! ### Run-level bookkeeping -/

theorem runDocs_join : ∀ (cs : List (List Byte)) (b : List Byte),
    (runDocs b cs).1.flatten ++ (runDocs b cs).2 = b ++ cs.flatten
  | [], b => by simp [runDocs]
  | c :: cs, b => by
    simp only [runDocs, List.flatten_append, List.append_assoc]
    rw [runDocs_join cs (feedDocs b c).2]
    rw [← List.append_assoc, feedDocs, extractDocs_join]
    simp

theorem runChunks_buffer_eq_runDocs (parse : List Byte → Option α) :
    ∀ (cs : List (List Byte)) (b : List Byte),
      (runChunks parse b cs).2 = (runDocs b cs).2
  | [], _ => rfl
  | _ :: cs, b => runChunks_buffer_eq_runDocs parse cs _

/-! ### The bounds-checked scan agrees with the extraction loop -/

theorem extractDocs_some {xs : List Byte} {i : Nat} (h : findSep xs = some i) :
    extractDocs xs =
      (xs.take (i + 2) :: (extractDocs (xs.drop (i + 2))).1,
        (extractDocs (xs.drop (i + 2))).2) := by
  have hle := findSep_some_le h
  obtain ⟨k, hk⟩ : ∃ k, xs.length = k + 1 :=
    Nat.exists_eq_succ_of_ne_zero (by omega)
  rw [extractDocs, hk, extractDocsF, h]
  dsimp only
  rw [extractDocsF_congr k (xs.drop (i + 2)).length (xs.drop (i + 2))
    (by rw [List.length_drop]; omega) le_rfl]
  rfl

theorem scanFrom_spec : ∀ (buf : List Byte) (start : Nat), start ≤ buf.length →
    ∃ fin, scanFrom buf start = some ((extractDocs (buf.drop start)).1, fin) ∧
      fin ≤ buf.length ∧ buf.drop fin = (extractDocs (buf.drop start)).2 := by
  intro buf start h
  rw [scanFrom, dif_pos h]
  cases hj : findSep (buf.drop start) with
  | none =>
    refine ⟨start, ?_, h, ?_⟩
    · rw [extractDocs_of_none hj]
    · rw [extractDocs_of_none hj]
  | some i =>
    dsimp only
    have hle := findSep_some_le hj
    rw [List.length_drop] at hle
    have h2 : start + i + 2 ≤ buf.length := by omega
    rw [dif_pos h2]
    obtain ⟨fin, hscan, hfin, hdrop⟩ := scanFrom_spec buf (start + i + 2) (by omega)
    have hdd : buf.drop (start + i + 2) = (buf.drop start).drop (i + 2) := by
      rw [List.drop_drop]
      congr 1
    rw [hscan]
    refine ⟨fin, ?_, hfin, ?_⟩
    · rw [extractDocs_some hj, hdd]
    · rw [hdrop, extractDocs_some hj, hdd]
termination_by buf start _ => buf.length - start
decreasing_by omega

theorem feedChecked_eq (parse : List Byte → Option α) (buffer chunk : List Byte) :
    feedChecked parse buffer chunk = some (feedStep parse buffer chunk) := by
  obtain ⟨fin, hscan, hfin, hdrop⟩ :=
    scanFrom_spec (buffer ++ chunk) 0 (Nat.zero_le _)
  rw [List.drop_zero] at hscan hdrop
  rw [feedChecked]
  rw [hscan]
  dsimp only
  rw [if_pos hfin, hdrop]
  rfl

/-- The body `b"{\"text\":\"a\"}"` of the document `chunkA`. -/
def bodyA : List Byte := [123, 34, 116, 101, 120, 116, 34, 58, 34, 97, 34, 125]

/-- The truncated partial document `b"{\"text\":\"b"`, never completed. -/
def chunkBTrunc : List Byte := [123, 34, 116, 101, 120, 116, 34, 58, 34, 98]

/-- The full wire stream `{"text":"a"\n}\r\n` then `{"text":"b"\n}`: one
CRLF-terminated document whose body happens to end in `\n}`, followed by a
final `\n}`-terminated document. -/
def streamC1 : List Byte := docANl ++ crlf ++ chunkBDoc

theorem tcond_of_once {F : List Byte} (honce : ¬ nlBrace <:+: F.dropLast) :
    ∀ p, p <+: F → nlBrace <:+ p → p = F := by
  intro p hp hs
  by_contra hne
  have hlt : p.length < F.length := by
    rcases Nat.lt_or_ge p.length F.length with h | h
    · exact h
    · exact absurd (hp.eq_of_length (Nat.le_antisymm hp.length_le h)) hne
  have hpd : p <+: F.dropLast := by
    rw [List.dropLast_eq_take]
    exact List.prefix_take_iff.mpr ⟨hp, by omega⟩
  exact honce (hs.isInfix.trans hpd.isInfix)

/-! ### The claims -/

/-- Claim C1, as stated, is false: chunking is NOT invariant.  The wire
stream `{"text":"a"\n}\r\n{"text":"b"\n}` consists of one CRLF-terminated
document followed by one final document whose last two bytes are `\n}`
(N = 1), yet feeding it one byte per chunk yields the text a twice and then
b (three items), while feeding it as a single chunk yields a then b (two
items): when the first document's bytes short of its delimiter already end
in `\n}`, the terminal heuristic fires and emits it, and the delimiter scan
emits it a second time once the `\r\n` arrives, so output depends on the
partition and a document is duplicated. -/
theorem c1_counterexample :
    (runChunks parseTranscription [] (streamC1.map (fun b => [b]))).1
        = [textA, textA, textB]
    ∧ (runChunks parseTranscription [] [streamC1]).1 = [textA, textB]
    ∧ ([textA, textA, textB] : List (List Byte)) ≠ [textA, textB] := by
  refine ⟨by decide, by decide, by decide⟩

/-- Claim C1 (amended): chunking invariance holds provided no document body
contains an occurrence of the delimiter `\r\n` or of the marker `\n}`, and
the final document contains `\n}` only as its last two bytes.  Under these
conditions, for EVERY partition of the wire bytes into nonempty chunks, the
decoder yields exactly the N parsed documents followed by the parsed final
document — N+1 items, in original order, identical for every partition. -/
theorem c1_chunking_invariance (parse : List Byte → Option α)
    (bodies : List (List Byte)) (vs : List α) (F : List Byte) (vF : α)
    (hdocs : List.Forall₂ (DocVal parse) bodies vs)
    (hFsep : findSep F = none)
    (hFend : nlBrace <:+ F)
    (hFonce : ¬ nlBrace <:+: F.dropLast)
    (hFparse : parse F = some vF)
    (cs : List (List Byte))
    (hne : cs ≠ []) (hnonempty : ∀ c ∈ cs, c ≠ [])
    (hconcat : cs.flatten = tailStream bodies F) :
    (runChunks parse [] cs).1 = vs ++ [vF] := by
  have hrun := runChunks_master parse F hFsep (tcond_of_once hFonce) cs bodies vs []
    hne hnonempty hdocs (by rw [findSep]) (by simpa using hconcat)
  rw [hrun, termOut]
  rw [if_pos (List.isSuffixOf_iff_suffix.mpr hFend), hFparse]
  rfl

/-- Witness for C1 (amended): the stream `{"text":"a"}\r\n{"text":"b"\n}`
split into its two documents as chunks yields exactly the two texts. -/
theorem c1_chunking_invariance_witness :
    (runChunks parseTranscription [] [chunkA, chunkBDoc]).1 = [textA] ++ [textB] :=
  c1_chunking_invariance parseTranscription [bodyA] [textA] chunkBDoc textB
    (List.Forall₂.cons ⟨by decide, by decide, by decide⟩ List.Forall₂.nil)
    (by decide) (by decide) (by decide) (by decide)
    [chunkA, chunkBDoc] (by decide) (by decide) (by decide)

/-- Claim C2, as stated, is false: a document emitted via the terminal
`\n}` heuristic on one feed call CAN be emitted again on a later feed call,
attributing the same bytes to two emitted Documents.  Feeding
`{"text":"a"\n}` and then `\r\n` emits the terminal document on the first
call and the same bytes again (with their delimiter) as a delimiter document
on the second call: the first emitted document is a proper prefix of the
second. -/
theorem c2_counterexample :
    (runEmitted parseTranscription [] [docANl, crlf]).1
        = [docANl, docANl ++ crlf]
    ∧ docANl <+: docANl ++ crlf
    ∧ docANl ≠ docANl ++ crlf := by
  refine ⟨by decide, ⟨crlf, rfl⟩, by decide⟩

/-- Claim C2 (amended): the delimiter-extracted documents do satisfy the
claim — across any sequence of feed calls they are emitted in byte order,
none is split across two calls' outputs, and no input byte lands in two of
them: their concatenation, in emission order, is literally a prefix of the
total input.  Only terminal-heuristic emissions can overlap later documents
(they are re-evaluated, not consumed). -/
theorem c2_delim_order (b : List Byte) (cs : List (List Byte)) :
    (runDocs b cs).1.flatten <+: b ++ cs.flatten :=
  ⟨(runDocs b cs).2, runDocs_join cs b⟩

/-- Claim C3, as stated, is false: bytes attributed to a Document emitted
via the terminal `\n}` heuristic DO remain in the buffer (the source parses
`&buffer` without draining it).  One feed of `{"text":"a"\n}` emits that
document as an item, yet the buffer afterwards still holds all of its
bytes. -/
theorem c3_counterexample :
    (feedStep parseTranscription [] docANl).1 = [textA]
    ∧ (feedStep parseTranscription [] docANl).2 = docANl
    ∧ docANl ≠ [] := by
  refine ⟨by decide, by decide, by decide⟩

/-- Claim C3 (amended): after every feed step the buffer holds exactly the
bytes received so far that were not attributed to a delimiter-extracted
document; a terminal-heuristic document's bytes stay in the buffer.  The
parser never affects the buffer, and the delimiter documents' bytes plus the
retained buffer reassemble the entire input. -/
theorem c3_buffer_residue (parse : List Byte → Option α) (b : List Byte)
    (cs : List (List Byte)) :
    (runChunks parse b cs).2 = (runDocs b cs).2
    ∧ (runDocs b cs).1.flatten ++ (runChunks parse b cs).2 = b ++ cs.flatten := by
  refine ⟨runChunks_buffer_eq_runDocs parse cs b, ?_⟩
  rw [runChunks_buffer_eq_runDocs parse cs b]
  exact runDocs_join cs b

/-- Claim C4: the speech resolver tries the Understanding schema first and
returns the first success, so any document the Understanding deserializer
accepts is classified as Understanding — regardless of what the
Transcription deserializer would say about the same bytes. -/
theorem c4_understanding_precedence {U T : Type}
    (parseU : List Byte → Option U) (parseT : List Byte → Option T)
    (utf8 : List Byte → Option String) (chunk : List Byte) (u : U)
    (h : parseU chunk = some u) :
    parse_chunk parseU parseT utf8 chunk = SpeechItem.understanding u := by
  rw [parse_chunk, h]

/-- Witness for C4: a document both deserializers accept resolves to the
Understanding shape. -/
theorem c4_understanding_precedence_witness :
    parse_chunk (fun _ => some 0) (fun _ => (some 1 : Option Nat))
      (fun _ => none) ([] : List Byte) = SpeechItem.understanding 0 :=
  c4_understanding_precedence (fun _ => some 0) (fun _ => some 1)
    (fun _ => none) [] 0 rfl

/-- Claim C5: under the single-shape (dictation) policy a document slice
that fails to deserialize contributes no output item of any kind; a stream
holding one well-formed document and then a truncated, never-completed
partial tail yields exactly one item, the well-formed one — for every
partition into nonempty chunks. -/
theorem c5_single_shape_discard (parse : List Byte → Option α)
    (B : List Byte) (v : α) (T : List Byte)
    (hdoc : DocVal parse B v)
    (hTsep : findSep T = none)
    (hTno : ¬ nlBrace <:+: T)
    (cs : List (List Byte)) (hne : cs ≠ []) (hnonempty : ∀ c ∈ cs, c ≠ [])
    (hconcat : cs.flatten = tailStream [B] T) :
    (runChunks parse [] cs).1 = [v] := by
  have hT : ∀ p, p <+: T → nlBrace <:+ p → p = T := fun p hp hs =>
    False.elim (hTno (hs.isInfix.trans hp.isInfix))
  have hrun := runChunks_master parse T hTsep hT cs [B] [v] []
    hne hnonempty (List.Forall₂.cons hdoc List.Forall₂.nil)
    (by rw [findSep]) (by simpa using hconcat)
  rw [hrun, termOut]
  rw [if_neg (fun hsuf => hTno (List.isSuffixOf_iff_suffix.mp hsuf).isInfix)]
  rfl

/-- Witness for C5: `{"text":"a"}\r\n` then the truncated `{"text":"b`
yields exactly the one item a. -/
theorem c5_single_shape_discard_witness :
    (runChunks parseTranscription [] [chunkA, chunkBTrunc]).1 = [textA] :=
  c5_single_shape_discard parseTranscription bodyA textA chunkBTrunc
    ⟨by decide, by decide, by decide⟩ (by decide) (by decide)
    [chunkA, chunkBTrunc] (by decide) (by decide) (by decide)

/-- Claim C6: when a document slice deserializes under neither schema, the
speech resolver emits an error item rather than discarding it: the error
carries the slice's decoded text exactly when the slice is valid UTF-8, and
carries no text otherwise. -/
theorem c6_multi_shape_error {U T : Type}
    (parseU : List Byte → Option U) (parseT : List Byte → Option T)
    (utf8 : List Byte → Option String) (chunk : List Byte)
    (hU : parseU chunk = none) (hT : parseT chunk = none) :
    parse_chunk parseU parseT utf8 chunk =
      (utf8 chunk).elim SpeechItem.errRaw SpeechItem.errText := by
  rw [parse_chunk, hU, hT]
  cases utf8 chunk <;> rfl

/-- Witness for C6: with both deserializers failing and the bytes decoding
to the text t, the resolver yields the text-carrying error item. -/
theorem c6_multi_shape_error_witness :
    parse_chunk (fun _ => (none : Option Nat)) (fun _ => (none : Option Nat))
      (fun _ => some "t") ([3] : List Byte) = SpeechItem.errText "t" :=
  c6_multi_shape_error (fun _ => none) (fun _ => none) (fun _ => some "t")
    [3] rfl rfl

/-- Claim C7: a transport failure produces exactly one error item, leaves
the buffer untouched, and the stream continues: for two good chunks, then a
failure, then a final good chunk, the output is the two good chunks' items,
one transport-error item, then the final chunk's items, in that order, with
the buffer threaded across the failure. -/
theorem c7_transport_recovery (parse : List Byte → Option α)
    (b c1 c2 c3 : List Byte) :
    (dictationRun parse b [.ok c1, .ok c2, .fail, .ok c3]).1 =
      (feedStep parse b c1).1.map DictItem.ok
      ++ (feedStep parse (feedStep parse b c1).2 c2).1.map DictItem.ok
      ++ [DictItem.transportErr]
      ++ (feedStep parse (feedStep parse (feedStep parse b c1).2 c2).2 c3).1.map
          DictItem.ok
    ∧ ∀ (rest : List SrcChunk),
        dictationRun parse b (SrcChunk.fail :: rest) =
          (DictItem.transportErr :: (dictationRun parse b rest).1,
            (dictationRun parse b rest).2) := by
  constructor
  · simp [dictationRun, dictationStep]
  · intro rest
    simp [dictationRun, dictationStep]

/-- Claim C8, as stated, is false: the specified second chunk
`{"text":"b"}\n}` is a complete object followed by a stray `\n}`, which
`serde_json::from_slice` rejects (trailing characters), so the terminal
heuristic's parse attempt fails and is discarded; the two chunks
`{"text":"a"}\r\n` and `{"text":"b"}\n}` yield exactly ONE item (the text
a), not two. -/
theorem c8_counterexample :
    (runChunks parseTranscription [] [chunkA, chunkBLit]).1 = [textA]
    ∧ ([textA] : List (List Byte)).length ≠ 2 := by
  refine ⟨by decide, by decide⟩

/-- Claim C8 (amended): with the final document written so that its last two
bytes `\n}` close the same object — `{"text":"b"\n}` — the two chunks yield
exactly two items, the texts a and b, the second recognized via the terminal
heuristic (the buffer still holds its bytes afterwards, since the heuristic
does not consume them). -/
theorem c8_concrete_scenario :
    (runChunks parseTranscription [] [chunkA, chunkBDoc]).1 = [textA, textB]
    ∧ (runChunks parseTranscription [] [chunkA, chunkBDoc]).2 = chunkBDoc := by
  refine ⟨by decide, by decide⟩

/-- Claim C9: the feed step is total — with every slice index of the scan
loop bounds-checked (`buffer[start..]`, the document slice, and
`drain(..start)`), the checked step never fails and agrees with the
unchecked one on every buffer state and chunk — and the retained buffer is
the same for any two parsers: boundary detection is purely syntactic. -/
theorem c9_feed_total {α β : Type} (parse₁ : List Byte → Option α)
    (parse₂ : List Byte → Option β) (buffer chunk : List Byte) :
    feedChecked parse₁ buffer chunk = some (feedStep parse₁ buffer chunk)
    ∧ (feedStep parse₁ buffer chunk).2 = (feedStep parse₂ buffer chunk).2 :=
  ⟨feedChecked_eq parse₁ buffer chunk, rfl⟩

/-- Claim C10: after every feed step the retained buffer contains no
occurrence of the delimiter `\r\n` — every delimiter-terminated prefix is
extracted in the feed call in which its delimiter arrives. -/
theorem c10_residue_delimiter_free (parse : List Byte → Option α)
    (buffer chunk : List Byte) :
    ¬ crlf <:+: (feedStep parse buffer chunk).2 :=
  not_infix_of_findSep_none (findSep_extract_none (buffer ++ chunk))

end WitAi
